import Mathlib

/-!
Verification of the `my-notes` repository against its specification.

Main subject: the segment tree in `src/data_structures/segment_tree.cpp`
(`struct SegmentTree` with `build`, `sum` — the spec's `query` — and
`update`).  Elements have C++ type `long long`; signed overflow is
undefined behaviour in C++, so the model uses exact integer arithmetic
(`Int`).  Tree slots are indexed by `int` values; the flat buffer
`std::vector<ll> tree` is modelled as a total map `Int → Int`
(`tree.assign(4*n, 0)` makes the initial map constantly `0`); which slots
are actually touched is tracked separately by the `segSlots`/`sumSlots`/
`updateSlots` instrumentation used for the storage-bound claim.

All array/midpoint arithmetic reachable from the public entry points
happens on non-negative operands, where C++ truncating division and
Lean's `Int` division agree.  The recursive members of the source recurse
unboundedly when called with `tl > tr` (and `sum` also when the query
range escapes `[tl, tr]`); those calls are unreachable from the public
entry points under the preconditions proved below, and the Lean
definitions return an arbitrary default (`else` fallback) there so that
they are total.
-/

namespace SegTree

/-- `int tm = tl + (tr - tl) / 2;` — the midpoint computed by `build`,
`sum` and `update`.  In every reachable call `tl ≤ tr`, so the C++
truncating division agrees with Lean's division. -/
def midp (tl tr : Int) : Int := tl + (tr - tl) / 2

/-- Writing one slot of the flat tree buffer: `tree[i] = x`. -/
def tset (t : Int → Int) (i : Int) (x : Int) : Int → Int :=
  fun j => if j = i then x else t j

/-- Reading `arr[i]` from the backing `std::vector<ll>`.  All reachable
reads have `0 ≤ i < arr.length`; the default `0` is never exercised. -/
def aget (arr : List Int) (i : Int) : Int := arr.getD i.toNat 0

/-- The mathematical point update on the abstract array, used to state
what `update` does to the represented values. -/
def aset (a : Int → Int) (p x : Int) : Int → Int :=
  fun i => if i = p then x else a i

/-- `SegmentTree::build(arr, v, tl, tr)` from the source:

    if (tl == tr) { tree[v] = arr[tl]; }
    else { int tm = tl + (tr - tl) / 2;
           build(arr, v * 2, tl, tm);
           build(arr, v * 2 + 1, tm + 1, tr);
           tree[v] = tree[2 * v] + tree[2 * v + 1]; }

The `else t` fallback (`tl > tr`) is unreachable from the constructor,
where the source would recurse without bound. -/
def build (arr : List Int) (t : Int → Int) (v tl tr : Int) : Int → Int :=
  if tl = tr then
    tset t v (aget arr tl)
  else if h : tl < tr then
    tset (build arr (build arr t (v * 2) tl (midp tl tr)) (v * 2 + 1) (midp tl tr + 1) tr)
      v
      ((build arr (build arr t (v * 2) tl (midp tl tr)) (v * 2 + 1) (midp tl tr + 1) tr) (2 * v) +
       (build arr (build arr t (v * 2) tl (midp tl tr)) (v * 2 + 1) (midp tl tr + 1) tr) (2 * v + 1))
  else t
termination_by (tr - tl).toNat
decreasing_by
  all_goals simp only [midp]; omega

/-- `SegmentTree::sum(v, tl, tr, l, r)` from the source:

    if (l > r) return 0;
    if (l == tl && r == tr) return tree[v];
    int tm = tl + (tr - tl) / 2;
    return sum(2*v, tl, tm, l, min(r, tm)) + sum(2*v+1, tm+1, tr, max(l, tm+1), r);

The `else 0` fallback is unreachable whenever `tl ≤ l` and `r ≤ tr`
(there the source would recurse without bound). -/
def sum (t : Int → Int) (v tl tr l r : Int) : Int :=
  if l > r then 0
  else if l = tl ∧ r = tr then t v
  else if h : tl < tr then
    sum t (2 * v) tl (midp tl tr) l (min r (midp tl tr)) +
      sum t (2 * v + 1) (midp tl tr + 1) tr (max l (midp tl tr + 1)) r
  else 0
termination_by (tr - tl).toNat
decreasing_by
  all_goals simp only [midp]; omega

/-- `SegmentTree::update(v, tl, tr, pos, val)` from the source:

    if (tl == tr) { tree[v] = val; }
    else { int tm = tl + (tr - tl) / 2;
           if (pos <= tm) update(2*v, tl, tm, pos, val);
           else update(2*v+1, tm+1, tr, pos, val);
           tree[v] = tree[2*v] + tree[2*v+1]; }

The `else t` fallback (`tl > tr`) is unreachable from the public
overload. -/
def update (t : Int → Int) (v tl tr pos w : Int) : Int → Int :=
  if tl = tr then tset t v w
  else if h : tl < tr then
    tset (if pos ≤ midp tl tr then update t (2 * v) tl (midp tl tr) pos w
          else update t (2 * v + 1) (midp tl tr + 1) tr pos w)
      v
      ((if pos ≤ midp tl tr then update t (2 * v) tl (midp tl tr) pos w
        else update t (2 * v + 1) (midp tl tr + 1) tr pos w) (2 * v) +
       (if pos ≤ midp tl tr then update t (2 * v) tl (midp tl tr) pos w
        else update t (2 * v + 1) (midp tl tr + 1) tr pos w) (2 * v + 1))
  else t
termination_by (tr - tl).toNat
decreasing_by
  all_goals simp only [midp]; omega

/-- The tree object: the stored size and the flat buffer.  (The source
declares a `size` member but its constructor stores the length only in a
local `n`; the public `update` overload refers to an undeclared `n` —
spec §9 treats this as a defect whose intent is the stored length, which
is how it is modelled here.) -/
structure Tree where
  size : Nat
  tree : Int → Int

/-- The constructor `SegmentTree(arr)`: `tree.assign(4 * n, 0);
build(arr, 1, 0, n - 1);`. -/
def segTreeOf (arr : List Int) : Tree :=
  { size := arr.length
    tree := build arr (fun _ => 0) 1 0 ((arr.length : Int) - 1) }

/-- The spec's `query(l, r)`: `sum(1, 0, n - 1, l, r)` on the root. -/
def Tree.query (s : Tree) (l r : Int) : Int :=
  sum s.tree 1 0 ((s.size : Int) - 1) l r

/-- The public `update(pos, val)` overload: `update(1, 0, n - 1, pos, val)`. -/
def Tree.updateAt (s : Tree) (pos w : Int) : Tree :=
  { size := s.size
    tree := update s.tree 1 0 ((s.size : Int) - 1) pos w }

/-- Modelled from the spec: the combine-aggregate (sum) of the abstract
values at positions `l..r`, each counted exactly once — the reference
value the query claims are measured against. -/
def rsumAux (a : Int → Int) (l : Int) : Nat → Int
  | 0 => 0
  | k + 1 => rsumAux a l k + a (l + k)

/-- `rsum a l r = a l + a (l+1) + ⋯ + a r` (0 when `r < l`). -/
def rsum (a : Int → Int) (l r : Int) : Int := rsumAux a l (r + 1 - l).toNat

/-- `w` is a slot in the (1-based, `2v`/`2v+1`) heap subtree rooted at
slot `v`: reachable from `v` by child steps. -/
def Desc (v w : Int) : Prop := ∃ k : Nat, v * 2 ^ k ≤ w ∧ w < (v + 1) * 2 ^ k

/-- The §3 invariant of the spec over the decomposition reachable from
slot `v` covering `[tl, tr]`: every internal slot stores the sum of its
two children and every leaf slot stores the abstract array value at its
position. -/
def Inv (t a : Int → Int) (v tl tr : Int) : Prop :=
  if tl = tr then t v = a tl
  else if h : tl < tr then
    t v = t (2 * v) + t (2 * v + 1) ∧
      Inv t a (2 * v) tl (midp tl tr) ∧ Inv t a (2 * v + 1) (midp tl tr + 1) tr
  else True
termination_by (tr - tl).toNat
decreasing_by
  all_goals simp only [midp]; omega

/-- All slots of the decomposition reachable from `(v, tl, tr)` — the
slots the recursive `build` reads or writes (the value written at an
internal slot reads its two children, which head the two sublists). -/
def segSlots (v tl tr : Int) : List Int :=
  if tl = tr then [v]
  else if h : tl < tr then
    v :: (segSlots (2 * v) tl (midp tl tr) ++ segSlots (2 * v + 1) (midp tl tr + 1) tr)
  else []
termination_by (tr - tl).toNat
decreasing_by
  all_goals simp only [midp]; omega

/-- The slots the recursive `sum` reads (`tree[v]` is read exactly at the
nodes whose range coincides with the query range). -/
def sumSlots (v tl tr l r : Int) : List Int :=
  if l > r then []
  else if l = tl ∧ r = tr then [v]
  else if h : tl < tr then
    sumSlots (2 * v) tl (midp tl tr) l (min r (midp tl tr)) ++
      sumSlots (2 * v + 1) (midp tl tr + 1) tr (max l (midp tl tr + 1)) r
  else []
termination_by (tr - tl).toNat
decreasing_by
  all_goals simp only [midp]; omega

/-- The slots the recursive `update` reads or writes: the descent path,
plus both children of every internal node on it (read when recomputing
the parent). -/
def updateSlots (v tl tr pos : Int) : List Int :=
  if tl = tr then [v]
  else if h : tl < tr then
    v :: (2 * v) :: (2 * v + 1) ::
      (if pos ≤ midp tl tr then updateSlots (2 * v) tl (midp tl tr) pos
       else updateSlots (2 * v + 1) (midp tl tr + 1) tr pos)
  else []
termination_by (tr - tl).toNat
decreasing_by
  all_goals simp only [midp]; omega

/-- A sequence of public `update(pos, val)` calls, applied in order. -/
def applyUpdates (s : Tree) (us : List (Int × Int)) : Tree :=
  us.foldl (fun s2 pv => s2.updateAt pv.1 pv.2) s

/-- The same sequence of point writes on the abstract array. -/
def asets (a : Int → Int) (us : List (Int × Int)) : Int → Int :=
  us.foldl (fun a2 pv => aset a2 pv.1 pv.2) a

end SegTree

namespace SharedPtr

/-!
Model of `yuvicc::customSharedPtr<T>` from
`src/data_structures/shared_ptr.cpp`.  `m_ptr : T*` is an optional
address; `m_ref_count : std::size_t*` is the address of the shared
counter cell.  The heap of `size_t` cells is a total map `Nat → Nat`
(reading an address that was never allocated yields whatever the map
holds there — the model's stand-in for reading invalid memory).
-/

structure Ptr where
  m_ptr : Option Nat
  m_ref_count : Nat

/-- Writing one `size_t` heap cell. -/
def hset (h : Nat → Nat) (i x : Nat) : Nat → Nat :=
  fun j => if j = i then x else h j

/-- `customSharedPtr(T* ptr) : m_ptr(ptr), m_ref_count(new size_t(1))`.
`c` is the fresh address handed out by `new size_t(1)`. -/
def fromRaw (p c : Nat) (h : Nat → Nat) : Ptr × (Nat → Nat) :=
  (⟨some p, c⟩, hset h c 1)

/-- The copy constructor
`customSharedPtr(const customSharedPtr& other) : m_ptr(other.m_ptr),
m_ref_count(other.m_ref_count) { *m_ref_count++; }`.
Postfix `++` binds tighter than `*`, so the statement post-increments the
member pointer `m_ref_count` and dereferences (then discards) its old
value: the shared counter cell is left untouched and the new object's
counter pointer moves one cell past the allocation; the heap is
unchanged. -/
def copyCtor (other : Ptr) : Ptr :=
  ⟨other.m_ptr, other.m_ref_count + 1⟩

/-- `long use_count() const noexcept { return
static_cast<long>(*this->m_ref_count); }` (the counter value fits in the
cell, so the cast is the identity in the model). -/
def use_count (h : Nat → Nat) (sp : Ptr) : Nat := h sp.m_ref_count

end SharedPtr

namespace UniquePtr

/-!
Model of `yuvicc::customUniquePointer<T, Deleter>` from
`src/data_structures/unique_pointer.cpp`.  Only the managed pointer
`mPtr` (an optional address, `none` = `nullptr`) is observable through
`get`/`operator bool`; the deleter is a value with no effect on the
pointer fields, so the state is `mPtr` alone and the pointer passed to
`mDeleter` by move assignment is returned explicitly.
-/

structure UPtr where
  mPtr : Option Nat

/-- `pointer get() { return mPtr; }` -/
def get (u : UPtr) : Option Nat := u.mPtr

/-- `explicit operator bool() const { return mPtr != nullptr; }` -/
def toBool (u : UPtr) : Bool := u.mPtr.isSome

/-- The move constructor
`customUniquePointer(customUniquePointer&& other) noexcept :
mPtr{std::exchange(other.mPtr, nullptr)}, mDeleter{...}`.
Returns (constructed object, `other` after the move). -/
def moveCtor (other : UPtr) : UPtr × UPtr :=
  (⟨other.mPtr⟩, ⟨none⟩)

/-- Move assignment `operator=(customUniquePointer&& other)`:
`mDeleter(mPtr); mPtr = std::exchange(other.mPtr, nullptr); ...`.
Returns (assigned-to object, `other` after the move, the old pointer
handed to the deleter). -/
def moveAssign (dst other : UPtr) : UPtr × UPtr × Option Nat :=
  (⟨other.mPtr⟩, ⟨none⟩, dst.mPtr)

end UniquePtr

namespace SegTree

theorem Desc.refl (v : Int) : Desc v v :=
  ⟨0, by simp, by simp⟩

theorem Desc.left {v w : Int} (h : Desc (2 * v) w) : Desc v w := by
  obtain ⟨k, h1, h2⟩ := h
  have hp : (0 : Int) < 2 ^ k := by positivity
  refine ⟨k + 1, ?_, ?_⟩
  · calc v * 2 ^ (k + 1) = 2 * v * 2 ^ k := by ring
    _ ≤ w := h1
  · calc w < (2 * v + 1) * 2 ^ k := h2
    _ ≤ (2 * v + 2) * 2 ^ k := by nlinarith
    _ = (v + 1) * 2 ^ (k + 1) := by ring

theorem Desc.right {v w : Int} (h : Desc (2 * v + 1) w) : Desc v w := by
  obtain ⟨k, h1, h2⟩ := h
  have hp : (0 : Int) < 2 ^ k := by positivity
  refine ⟨k + 1, ?_, ?_⟩
  · calc v * 2 ^ (k + 1) = 2 * v * 2 ^ k := by ring
    _ ≤ (2 * v + 1) * 2 ^ k := by nlinarith
    _ ≤ w := h1
  · calc w < (2 * v + 1 + 1) * 2 ^ k := h2
    _ = (v + 1) * 2 ^ (k + 1) := by ring

theorem Desc.le {v w : Int} (hv : 0 ≤ v) (h : Desc v w) : v ≤ w := by
  obtain ⟨k, h1, _⟩ := h
  have hp : (1 : Int) ≤ 2 ^ k := one_le_pow₀ (by norm_num)
  nlinarith

/-- Siblings' subtrees are disjoint (for real slots, `1 ≤ v`). -/
theorem Desc.sib {v w : Int} (hv : 1 ≤ v) (h1 : Desc (2 * v) w)
    (h2 : Desc (2 * v + 1) w) : False := by
  obtain ⟨k, a1, a2⟩ := h1
  obtain ⟨j, b1, b2⟩ := h2
  rcases le_or_lt k j with hkj | hjk
  · have hpow : (2 : Int) ^ k ≤ 2 ^ j := pow_le_pow_right₀ (by norm_num) hkj
    nlinarith
  · have hpow : (2 : Int) ^ (j + 1) ≤ 2 ^ k := pow_le_pow_right₀ (by norm_num) hjk
    have hj : (0 : Int) < 2 ^ j := by positivity
    have hk : (2 : Int) ^ (j + 1) = 2 * 2 ^ j := by ring
    nlinarith

/-- A slot `v` is not inside either of its children's subtrees. -/
theorem Desc.not_self_child {v : Int} (hv : 1 ≤ v) :
    ¬ Desc (2 * v) v ∧ ¬ Desc (2 * v + 1) v := by
  constructor
  · intro h
    have := Desc.le (by omega) h
    omega
  · intro h
    have := Desc.le (by omega) h
    omega

/-- `build` writes only slots inside the subtree of `v`. -/
theorem build_frame (arr : List Int) (t : Int → Int) (v tl tr w : Int)
    (hw : ¬ Desc v w) : build arr t v tl tr w = t w := by
  rw [build]
  split
  · have : w ≠ v := fun h => hw (h ▸ Desc.refl v)
    simp [tset, this]
  · split
    · have hv : w ≠ v := fun h => hw (h ▸ Desc.refl v)
      have hL : ¬ Desc (v * 2) w := by
        intro h
        exact hw (Desc.left (by rwa [mul_comm] at h))
      have hR : ¬ Desc (v * 2 + 1) w := by
        intro h
        exact hw (Desc.right (by rwa [mul_comm v 2] at h))
      simp only [tset, if_neg hv]
      rw [build_frame arr _ (v * 2 + 1) _ tr w hR,
        build_frame arr t (v * 2) tl _ w hL]
    · rfl
termination_by (tr - tl).toNat
decreasing_by
  all_goals simp only [midp]; omega

/-- `update` writes only slots inside the subtree of `v`. -/
theorem update_frame (t : Int → Int) (v tl tr pos x w : Int)
    (hw : ¬ Desc v w) : update t v tl tr pos x w = t w := by
  rw [update]
  split
  · have : w ≠ v := fun h => hw (h ▸ Desc.refl v)
    simp [tset, this]
  · split
    · have hv : w ≠ v := fun h => hw (h ▸ Desc.refl v)
      have hL : ¬ Desc (2 * v) w := fun h => hw (Desc.left h)
      have hR : ¬ Desc (2 * v + 1) w := fun h => hw (Desc.right h)
      simp only [tset, if_neg hv]
      split
      · exact update_frame t (2 * v) tl _ pos x w hL
      · exact update_frame t (2 * v + 1) _ tr pos x w hR
    · rfl
termination_by (tr - tl).toNat
decreasing_by
  all_goals simp only [midp]; omega

theorem Desc.left2 {v w : Int} (h : Desc (v * 2) w) : Desc v w :=
  Desc.left (by rwa [mul_comm] at h)

theorem Desc.right2 {v w : Int} (h : Desc (v * 2 + 1) w) : Desc v w :=
  Desc.right (by rwa [mul_comm v 2] at h)

theorem Desc.sib2 {v w : Int} (hv : 1 ≤ v) (h1 : Desc (v * 2) w)
    (h2 : Desc (v * 2 + 1) w) : False :=
  Desc.sib hv (by rwa [mul_comm v 2] at h1) (by rwa [mul_comm v 2] at h2)

theorem midp_lb {tl tr : Int} (h : tl < tr) : tl ≤ midp tl tr := by
  unfold midp
  omega

theorem midp_ub {tl tr : Int} (h : tl < tr) : midp tl tr < tr := by
  unfold midp
  omega

theorem rsum_neg (a : Int → Int) {l r : Int} (h : r < l) : rsum a l r = 0 := by
  unfold rsum
  have : (r + 1 - l).toNat = 0 := by omega
  rw [this]
  rfl

theorem rsum_single (a : Int → Int) (l : Int) : rsum a l l = a l := by
  unfold rsum
  have : (l + 1 - l).toNat = 1 := by omega
  rw [this]
  simp [rsumAux]

theorem rsum_last (a : Int → Int) {l r : Int} (h : l ≤ r) :
    rsum a l r = rsum a l (r - 1) + a r := by
  unfold rsum
  have hk : (r + 1 - l).toNat = (r - l).toNat + 1 := by omega
  have hk2 : (r - 1 + 1 - l).toNat = (r - l).toNat := by omega
  have hc : ((r - l).toNat : Int) = r - l := Int.toNat_of_nonneg (by omega)
  rw [hk, hk2]
  simp only [rsumAux]
  rw [hc]
  have : l + (r - l) = r := by ring
  rw [this]

theorem rsum_split (a : Int → Int) (l m r : Int) (h1 : l ≤ m + 1) (h2 : m ≤ r) :
    rsum a l m + rsum a (m + 1) r = rsum a l r := by
  rcases eq_or_lt_of_le h2 with rfl | hmr
  · rw [rsum_neg a (by omega : m < m + 1)]
    ring
  · rw [rsum_last a (by omega : m + 1 ≤ r), rsum_last a (by omega : l ≤ r),
      ← rsum_split a l m (r - 1) h1 (by omega)]
    ring
termination_by (r - m).toNat
decreasing_by omega

theorem Inv_leaf {t a : Int → Int} {v tl : Int} : Inv t a v tl tl ↔ t v = a tl := by
  rw [Inv]
  simp

theorem Inv_node {t a : Int → Int} {v tl tr : Int} (h : tl < tr) :
    Inv t a v tl tr ↔
      t v = t (2 * v) + t (2 * v + 1) ∧
        Inv t a (2 * v) tl (midp tl tr) ∧ Inv t a (2 * v + 1) (midp tl tr + 1) tr := by
  rw [Inv]
  simp [show ¬ tl = tr by omega, h]

theorem Inv_congr {t t1 a : Int → Int} {v tl tr : Int}
    (ht : ∀ w, Desc v w → t w = t1 w) (h : Inv t a v tl tr) : Inv t1 a v tl tr := by
  rcases lt_trichotomy tl tr with hlt | heq | hgt
  · rw [Inv_node hlt] at h ⊢
    refine ⟨?_, ?_, ?_⟩
    · rw [← ht v (Desc.refl v), ← ht (2 * v) (Desc.left (Desc.refl (2 * v))),
        ← ht (2 * v + 1) (Desc.right (Desc.refl (2 * v + 1)))]
      exact h.1
    · exact Inv_congr (fun w hw => ht w (Desc.left hw)) h.2.1
    · exact Inv_congr (fun w hw => ht w (Desc.right hw)) h.2.2
  · subst heq
    rw [Inv_leaf] at h ⊢
    rw [← ht v (Desc.refl v)]
    exact h
  · rw [Inv]
    simp [show ¬ tl = tr by omega, show ¬ tl < tr by omega]
termination_by (tr - tl).toNat
decreasing_by
  all_goals simp only [midp]; omega

theorem Inv_congr_arr {t a b : Int → Int} {v tl tr : Int}
    (hab : ∀ i, tl ≤ i → i ≤ tr → a i = b i) (h : Inv t a v tl tr) :
    Inv t b v tl tr := by
  rcases lt_trichotomy tl tr with hlt | heq | hgt
  · have hm1 := midp_lb hlt
    have hm2 := midp_ub hlt
    rw [Inv_node hlt] at h ⊢
    exact ⟨h.1,
      Inv_congr_arr (fun i hi1 hi2 => hab i hi1 (by omega)) h.2.1,
      Inv_congr_arr (fun i hi1 hi2 => hab i (by omega) hi2) h.2.2⟩
  · subst heq
    rw [Inv_leaf] at h ⊢
    rw [h, hab tl le_rfl le_rfl]
  · rw [Inv]
    simp [show ¬ tl = tr by omega, show ¬ tl < tr by omega]
termination_by (tr - tl).toNat
decreasing_by
  all_goals simp only [midp]; omega

/-- At any slot whose invariant holds, the stored aggregate is the range
sum of the covered interval. -/
theorem Inv_rsum {t a : Int → Int} {v tl tr : Int} (hle : tl ≤ tr)
    (h : Inv t a v tl tr) : t v = rsum a tl tr := by
  rcases eq_or_lt_of_le hle with heq | hlt
  · subst heq
    rw [Inv_leaf] at h
    rw [h, rsum_single]
  · have hm1 := midp_lb hlt
    have hm2 := midp_ub hlt
    rw [Inv_node hlt] at h
    rw [h.1, Inv_rsum (by omega) h.2.1, Inv_rsum (by omega) h.2.2,
      rsum_split a tl (midp tl tr) tr (by omega) (by omega)]
termination_by (tr - tl).toNat
decreasing_by
  all_goals simp only [midp]; omega

/-- Build correctness (§4.1): after `build(arr, v, tl, tr)` the invariant
holds for every slot reachable from `v`. -/
theorem build_inv (arr : List Int) (t : Int → Int) (v tl tr : Int)
    (hv : 1 ≤ v) (hle : tl ≤ tr) :
    Inv (build arr t v tl tr) (aget arr) v tl tr := by
  rcases eq_or_lt_of_le hle with heq | hlt
  · subst heq
    rw [Inv_leaf, build]
    simp [tset]
  · have hm1 := midp_lb hlt
    have hm2 := midp_ub hlt
    rw [build, if_neg (by omega : ¬ tl = tr), dif_pos hlt]
    have hIL : Inv (build arr t (v * 2) tl (midp tl tr)) (aget arr) (v * 2) tl (midp tl tr) :=
      build_inv arr t (v * 2) tl (midp tl tr) (by omega) (by omega)
    have hIR : Inv (build arr (build arr t (v * 2) tl (midp tl tr)) (v * 2 + 1) (midp tl tr + 1) tr)
        (aget arr) (v * 2 + 1) (midp tl tr + 1) tr :=
      build_inv arr (build arr t (v * 2) tl (midp tl tr)) (v * 2 + 1) (midp tl tr + 1) tr
        (by omega) (by omega)
    rw [Inv_node hlt]
    refine ⟨?_, ?_, ?_⟩
    · have h1 : ¬ (2 * v = v) := by omega
      have h2 : ¬ (2 * v + 1 = v) := by omega
      simp [tset, h1, h2]
    · rw [show (2 : Int) * v = v * 2 by ring]
      refine Inv_congr (fun w hw => ?_) hIL
      have hnd : ¬ Desc (v * 2 + 1) w := fun hc => Desc.sib2 hv hw hc
      have hwv : w ≠ v := by
        have := Desc.le (by omega : (0 : Int) ≤ v * 2) hw
        omega
      rw [← build_frame arr (build arr t (v * 2) tl (midp tl tr)) (v * 2 + 1)
        (midp tl tr + 1) tr w hnd]
      simp [tset, hwv]
    · rw [show (2 : Int) * v + 1 = v * 2 + 1 by ring]
      refine Inv_congr (fun w hw => ?_) hIR
      have hwv : w ≠ v := by
        have := Desc.le (by omega : (0 : Int) ≤ v * 2 + 1) hw
        omega
      simp [tset, hwv]
termination_by (tr - tl).toNat
decreasing_by
  all_goals simp only [midp]; omega

/-- Query correctness (§4.1): at any slot whose invariant holds, `sum`
returns the range sum of `a` over `[l, r]` whenever the query range stays
inside the covered range. -/
theorem sum_correct {t a : Int → Int} {v tl tr l r : Int} (h : Inv t a v tl tr)
    (hle : tl ≤ tr) (hl : tl ≤ l) (hr : r ≤ tr) :
    sum t v tl tr l r = rsum a l r := by
  rw [sum]
  by_cases hlr : l > r
  · rw [if_pos hlr, rsum_neg a (by omega)]
  · rw [if_neg hlr]
    by_cases hex : l = tl ∧ r = tr
    · rw [if_pos hex, hex.1, hex.2]
      exact Inv_rsum hle h
    · rw [if_neg hex]
      have hlt : tl < tr := by
        rcases eq_or_lt_of_le hle with heq | hgood
        · exfalso
          exact hex ⟨by omega, by omega⟩
        · exact hgood
      rw [dif_pos hlt]
      have hm1 := midp_lb hlt
      have hm2 := midp_ub hlt
      rw [Inv_node hlt] at h
      rw [sum_correct h.2.1 (by omega) hl (by omega : min r (midp tl tr) ≤ midp tl tr),
        sum_correct h.2.2 (by omega) (by omega : midp tl tr + 1 ≤ max l (midp tl tr + 1)) hr]
      rcases le_or_lt r (midp tl tr) with hc | hc
      · rw [min_eq_left hc, rsum_neg a (by omega : r < max l (midp tl tr + 1)), add_zero]
      · rcases le_or_lt l (midp tl tr) with hc2 | hc2
        · rw [min_eq_right (by omega), max_eq_right (by omega)]
          exact rsum_split a l (midp tl tr) r (by omega) (by omega)
        · rw [min_eq_right (by omega), max_eq_left (by omega),
            rsum_neg a (by omega : midp tl tr < l), zero_add]
termination_by (tr - tl).toNat
decreasing_by
  all_goals simp only [midp]; omega

/-- Update correctness (§4.1): `update(v, tl, tr, pos, x)` restores the
invariant, now representing the abstract array with position `pos`
overwritten by `x`. -/
theorem update_inv {t a : Int → Int} {v tl tr pos x : Int} (hv : 1 ≤ v)
    (hle : tl ≤ tr) (h1 : tl ≤ pos) (h2 : pos ≤ tr) (h : Inv t a v tl tr) :
    Inv (update t v tl tr pos x) (aset a pos x) v tl tr := by
  rcases eq_or_lt_of_le hle with heq | hlt
  · subst heq
    rw [Inv_leaf] at h ⊢
    have hpos : pos = tl := by omega
    rw [update, if_pos rfl]
    simp [tset, aset, hpos]
  · have hm1 := midp_lb hlt
    have hm2 := midp_ub hlt
    rw [update, if_neg (by omega : ¬ tl = tr), dif_pos hlt]
    rw [Inv_node hlt] at h ⊢
    have hne1 : ¬ (2 * v = v) := by omega
    have hne2 : ¬ (2 * v + 1 = v) := by omega
    by_cases hp : pos ≤ midp tl tr
    · simp only [if_pos hp]
      refine ⟨by simp [tset, hne1, hne2], ?_, ?_⟩
      · refine Inv_congr (fun w hw => ?_)
          (update_inv (by omega) (by omega) h1 hp h.2.1)
        have hwv : w ≠ v := by
          have := Desc.le (by omega : (0 : Int) ≤ 2 * v) hw
          omega
        simp [tset, hwv]
      · have hR : Inv t (aset a pos x) (2 * v + 1) (midp tl tr + 1) tr :=
          Inv_congr_arr
            (fun i hi1 hi2 => by rw [aset, if_neg (show ¬ i = pos by omega)]) h.2.2
        refine Inv_congr (fun w hw => ?_) hR
        have hwv : w ≠ v := by
          have := Desc.le (by omega : (0 : Int) ≤ 2 * v + 1) hw
          omega
        have hfr : update t (2 * v) tl (midp tl tr) pos x w = t w :=
          update_frame t (2 * v) tl (midp tl tr) pos x w (fun hc => Desc.sib hv hc hw)
        rw [← hfr]
        simp [tset, hwv]
    · simp only [if_neg hp]
      refine ⟨by simp [tset, hne1, hne2], ?_, ?_⟩
      · have hL : Inv t (aset a pos x) (2 * v) tl (midp tl tr) :=
          Inv_congr_arr
            (fun i hi1 hi2 => by rw [aset, if_neg (show ¬ i = pos by omega)]) h.2.1
        refine Inv_congr (fun w hw => ?_) hL
        have hwv : w ≠ v := by
          have := Desc.le (by omega : (0 : Int) ≤ 2 * v) hw
          omega
        have hfr : update t (2 * v + 1) (midp tl tr + 1) tr pos x w = t w :=
          update_frame t (2 * v + 1) (midp tl tr + 1) tr pos x w
            (fun hc => Desc.sib hv hw hc)
        rw [← hfr]
        simp [tset, hwv]
      · refine Inv_congr (fun w hw => ?_)
          (update_inv (by omega) (by omega) (by omega) h2 h.2.2)
        have hwv : w ≠ v := by
          have := Desc.le (by omega : (0 : Int) ≤ 2 * v + 1) hw
          omega
        simp [tset, hwv]
termination_by (tr - tl).toNat
decreasing_by
  all_goals simp only [midp]; omega

theorem sum_empty {t : Int → Int} {v tl tr l r : Int} (h : l > r) :
    sum t v tl tr l r = 0 := by
  rw [sum, if_pos h]

/-- `sum` only reads slots inside the subtree of `v`. -/
theorem sum_congr {t t2 : Int → Int} {v tl tr l r : Int}
    (hs : ∀ w, Desc v w → t w = t2 w) : sum t v tl tr l r = sum t2 v tl tr l r := by
  conv_lhs => rw [sum]
  conv_rhs => rw [sum]
  by_cases h1 : l > r
  · simp only [if_pos h1]
  · simp only [if_neg h1]
    by_cases h2 : l = tl ∧ r = tr
    · simp only [if_pos h2]
      exact hs v (Desc.refl v)
    · simp only [if_neg h2]
      by_cases h3 : tl < tr
      · simp only [dif_pos h3]
        rw [sum_congr (fun w hw => hs w (Desc.left hw)),
          sum_congr (fun w hw => hs w (Desc.right hw))]
      · simp only [dif_neg h3]
termination_by (tr - tl).toNat
decreasing_by
  all_goals simp only [midp]; omega

/-- Update locality at the level of the recursive workers: a point query
at `i ≠ pos` is unaffected by `update` at `pos`, for an arbitrary buffer
state. -/
theorem sum_point_update {t : Int → Int} {v tl tr i pos x : Int} (hv : 1 ≤ v)
    (hi1 : tl ≤ i) (hi2 : i ≤ tr) (hp1 : tl ≤ pos) (hp2 : pos ≤ tr)
    (hne : i ≠ pos) :
    sum (update t v tl tr pos x) v tl tr i i = sum t v tl tr i i := by
  have hle : tl ≤ tr := by omega
  rcases eq_or_lt_of_le hle with heq | hlt
  · omega
  · have hm1 := midp_lb hlt
    have hm2 := midp_ub hlt
    have hnx : ¬ (i : Int) > i := by omega
    have hnex : ¬ (i = tl ∧ i = tr) := by
      rintro ⟨ha, hb⟩
      omega
    conv_lhs => rw [sum]
    conv_rhs => rw [sum]
    simp only [if_neg hnx, if_neg hnex, dif_pos hlt]
    rw [update]
    simp only [if_neg (show ¬ tl = tr by omega), dif_pos hlt]
    by_cases hp : pos ≤ midp tl tr
    · simp only [if_pos hp]
      rcases le_or_lt i (midp tl tr) with hc | hc
      · rw [sum_empty (by omega : max i (midp tl tr + 1) > i),
          sum_empty (by omega : max i (midp tl tr + 1) > i)]
        have hstep :
            sum (tset (update t (2 * v) tl (midp tl tr) pos x) v
                (update t (2 * v) tl (midp tl tr) pos x (2 * v) +
                 update t (2 * v) tl (midp tl tr) pos x (2 * v + 1)))
              (2 * v) tl (midp tl tr) i (min i (midp tl tr)) =
            sum (update t (2 * v) tl (midp tl tr) pos x)
              (2 * v) tl (midp tl tr) i (min i (midp tl tr)) := by
          refine sum_congr (fun w hw => ?_)
          have hwv : w ≠ v := by
            have := Desc.le (by omega : (0 : Int) ≤ 2 * v) hw
            omega
          simp [tset, hwv]
        rw [hstep, min_eq_left hc,
          sum_point_update (by omega) hi1 hc hp1 hp hne]
      · rw [sum_empty (by omega : i > min i (midp tl tr)),
          sum_empty (by omega : i > min i (midp tl tr)),
          max_eq_left (by omega : midp tl tr + 1 ≤ i)]
        refine congrArg (fun z => (0 : Int) + z) (sum_congr (fun w hw => ?_))
        have hwv : w ≠ v := by
          have := Desc.le (by omega : (0 : Int) ≤ 2 * v + 1) hw
          omega
        have hfr : update t (2 * v) tl (midp tl tr) pos x w = t w :=
          update_frame t (2 * v) tl (midp tl tr) pos x w (fun hc2 => Desc.sib hv hc2 hw)
        rw [← hfr]
        simp [tset, hwv]
    · simp only [if_neg hp]
      rcases le_or_lt i (midp tl tr) with hc | hc
      · rw [sum_empty (by omega : max i (midp tl tr + 1) > i),
          sum_empty (by omega : max i (midp tl tr + 1) > i),
          min_eq_left hc]
        refine congrArg (fun z => z + (0 : Int)) (sum_congr (fun w hw => ?_))
        have hwv : w ≠ v := by
          have := Desc.le (by omega : (0 : Int) ≤ 2 * v) hw
          omega
        have hfr : update t (2 * v + 1) (midp tl tr + 1) tr pos x w = t w :=
          update_frame t (2 * v + 1) (midp tl tr + 1) tr pos x w
            (fun hc2 => Desc.sib hv hw hc2)
        rw [← hfr]
        simp [tset, hwv]
      · rw [sum_empty (by omega : i > min i (midp tl tr)),
          sum_empty (by omega : i > min i (midp tl tr)),
          max_eq_left (by omega : midp tl tr + 1 ≤ i)]
        have hstep :
            sum (tset (update t (2 * v + 1) (midp tl tr + 1) tr pos x) v
                (update t (2 * v + 1) (midp tl tr + 1) tr pos x (2 * v) +
                 update t (2 * v + 1) (midp tl tr + 1) tr pos x (2 * v + 1)))
              (2 * v + 1) (midp tl tr + 1) tr i i =
            sum (update t (2 * v + 1) (midp tl tr + 1) tr pos x)
              (2 * v + 1) (midp tl tr + 1) tr i i := by
          refine sum_congr (fun w hw => ?_)
          have hwv : w ≠ v := by
            have := Desc.le (by omega : (0 : Int) ≤ 2 * v + 1) hw
            omega
          simp [tset, hwv]
        rw [hstep, sum_point_update (by omega) (by omega) hi2 (by omega) hp2 hne]
termination_by (tr - tl).toNat
decreasing_by
  all_goals simp only [midp]; omega

/-- With `pos` beyond the right end of the covered range the descent
always takes the right child, exactly as it does for `pos = tr`: the
out-of-range update silently rewrites the last leaf. -/
theorem update_clamp_high {t : Int → Int} {v tl tr pos x : Int}
    (hle : tl ≤ tr) (hp : tr < pos) :
    update t v tl tr pos x = update t v tl tr tr x := by
  rcases eq_or_lt_of_le hle with heq | hlt
  · subst heq
    rw [update, if_pos rfl, update, if_pos rfl]
  · have hm1 := midp_lb hlt
    have hm2 := midp_ub hlt
    conv_lhs => rw [update]
    conv_rhs => rw [update]
    simp only [if_neg (show ¬ tl = tr by omega), dif_pos hlt,
      if_neg (show ¬ pos ≤ midp tl tr by omega),
      if_neg (show ¬ tr ≤ midp tl tr by omega)]
    rw [update_clamp_high (by omega) hp]
termination_by (tr - tl).toNat
decreasing_by
  all_goals simp only [midp]; omega

theorem self_mem_segSlots {v tl tr : Int} (hle : tl ≤ tr) : v ∈ segSlots v tl tr := by
  rw [segSlots]
  rcases eq_or_lt_of_le hle with heq | hlt
  · rw [if_pos heq]
    exact List.mem_singleton.2 rfl
  · rw [if_neg (show ¬ tl = tr by omega), dif_pos hlt]
    exact List.mem_cons_self v _

theorem segSlots_desc {v tl tr w : Int} (hw : w ∈ segSlots v tl tr) : Desc v w := by
  rw [segSlots] at hw
  by_cases heq : tl = tr
  · rw [if_pos heq] at hw
    rw [List.mem_singleton.1 hw]
    exact Desc.refl v
  · rw [if_neg heq] at hw
    by_cases hlt : tl < tr
    · rw [dif_pos hlt] at hw
      rcases List.mem_cons.1 hw with h | h
      · rw [h]
        exact Desc.refl v
      · rcases List.mem_append.1 h with h2 | h2
        · exact Desc.left (segSlots_desc h2)
        · exact Desc.right (segSlots_desc h2)
    · rw [dif_neg hlt] at hw
      simp at hw
termination_by (tr - tl).toNat
decreasing_by
  all_goals simp only [midp]; omega

/-- Depth-bounded upper bound on subtree slots: if the covered range fits
in `2 ^ e` positions, all slots reachable from `v` are below
`(v + 1) * 2 ^ e`. -/
theorem segSlots_ub {v tl tr : Int} {e : Nat} (hv : 1 ≤ v) (hle : tl ≤ tr)
    (hd : tr - tl < 2 ^ e) : ∀ w ∈ segSlots v tl tr, w < (v + 1) * 2 ^ e := by
  intro w hw
  have hpe : (0 : Int) < 2 ^ e := by positivity
  rw [segSlots] at hw
  rcases eq_or_lt_of_le hle with heq | hlt
  · rw [if_pos heq] at hw
    rw [List.mem_singleton.1 hw]
    nlinarith
  · rw [if_neg (show ¬ tl = tr by omega), dif_pos hlt] at hw
    cases e with
    | zero =>
      norm_num at hd
      omega
    | succ e2 =>
      have hpow : (2 : Int) ^ (e2 + 1) = 2 * 2 ^ e2 := by ring
      have hpe2 : (0 : Int) < 2 ^ e2 := by positivity
      have hm1 := midp_lb hlt
      have hm2 := midp_ub hlt
      have hmv : midp tl tr = tl + (tr - tl) / 2 := rfl
      rcases List.mem_cons.1 hw with h | h
      · rw [h]
        nlinarith
      · rcases List.mem_append.1 h with h2 | h2
        · have hb : w < (2 * v + 1) * 2 ^ e2 :=
            segSlots_ub (by omega) (by omega) (by omega) w h2
          nlinarith
        · have hb : w < (2 * v + 1 + 1) * 2 ^ e2 :=
            segSlots_ub (by omega) (by omega) (by omega) w h2
          calc w < (2 * v + 1 + 1) * 2 ^ e2 := hb
          _ = (v + 1) * 2 ^ (e2 + 1) := by ring
termination_by (tr - tl).toNat
decreasing_by
  all_goals simp only [midp]; omega

theorem segSlots_lb {v tl tr w : Int} (hv : 1 ≤ v) (hw : w ∈ segSlots v tl tr) :
    1 ≤ w := by
  have := Desc.le (by omega : (0 : Int) ≤ v) (segSlots_desc hw)
  omega

theorem sumSlots_sub {v tl tr l r : Int} (hle : tl ≤ tr) (hl : tl ≤ l) (hr : r ≤ tr) :
    ∀ w ∈ sumSlots v tl tr l r, w ∈ segSlots v tl tr := by
  intro w hw
  rw [sumSlots] at hw
  by_cases h1 : l > r
  · rw [if_pos h1] at hw
    simp at hw
  · rw [if_neg h1] at hw
    by_cases h2 : l = tl ∧ r = tr
    · rw [if_pos h2] at hw
      rw [List.mem_singleton.1 hw]
      exact self_mem_segSlots hle
    · rw [if_neg h2] at hw
      have hlt : tl < tr := by
        rcases eq_or_lt_of_le hle with heq | hgood
        · exact absurd ⟨by omega, by omega⟩ h2
        · exact hgood
      have hm1 := midp_lb hlt
      have hm2 := midp_ub hlt
      rw [dif_pos hlt] at hw
      rw [segSlots, if_neg (show ¬ tl = tr by omega), dif_pos hlt]
      refine List.mem_cons_of_mem v ?_
      rcases List.mem_append.1 hw with h3 | h3
      · exact List.mem_append_left _
          (sumSlots_sub (by omega) hl (by omega : min r (midp tl tr) ≤ midp tl tr) w h3)
      · exact List.mem_append_right _
          (sumSlots_sub (by omega) (by omega : midp tl tr + 1 ≤ max l (midp tl tr + 1)) hr w h3)
termination_by (tr - tl).toNat
decreasing_by
  all_goals simp only [midp]; omega

theorem updateSlots_sub {v tl tr pos : Int} (hle : tl ≤ tr) :
    ∀ w ∈ updateSlots v tl tr pos, w ∈ segSlots v tl tr := by
  intro w hw
  rw [updateSlots] at hw
  rcases eq_or_lt_of_le hle with heq | hlt
  · rw [if_pos heq] at hw
    rw [segSlots, if_pos heq]
    exact hw
  · have hm1 := midp_lb hlt
    have hm2 := midp_ub hlt
    rw [if_neg (show ¬ tl = tr by omega), dif_pos hlt] at hw
    rw [segSlots, if_neg (show ¬ tl = tr by omega), dif_pos hlt]
    rcases List.mem_cons.1 hw with h | h
    · exact h ▸ List.mem_cons_self v _
    · refine List.mem_cons_of_mem v ?_
      rcases List.mem_cons.1 h with h2 | h2
      · exact h2 ▸ List.mem_append_left _ (self_mem_segSlots (by omega))
      · rcases List.mem_cons.1 h2 with h3 | h3
        · exact h3 ▸ List.mem_append_right _ (self_mem_segSlots (by omega))
        · by_cases hp : pos ≤ midp tl tr
          · rw [if_pos hp] at h3
            exact List.mem_append_left _ (updateSlots_sub (by omega) w h3)
          · rw [if_neg hp] at h3
            exact List.mem_append_right _ (updateSlots_sub (by omega) w h3)
termination_by (tr - tl).toNat
decreasing_by
  all_goals simp only [midp]; omega

/-- For `n ≥ 1`, `2 ^ clog 2 n ≤ 2 n`: the least power of two covering
`n` leaves is at most `2 n`. -/
theorem pow_clog_le_two_mul {n : Nat} (hn : 1 ≤ n) : 2 ^ Nat.clog 2 n ≤ 2 * n := by
  rcases eq_or_lt_of_le hn with heq | hgt
  · rw [← heq]
    norm_num
  · have h1 : 2 ^ (Nat.clog 2 n - 1) < n := Nat.pow_pred_clog_lt_self (by norm_num) hgt
    have h2 : 0 < Nat.clog 2 n := Nat.clog_pos (by norm_num) hgt
    have h3 : Nat.clog 2 n = (Nat.clog 2 n - 1) + 1 := by omega
    rw [h3, pow_succ]
    omega

/-- `rsum` adds the abstract value of every index of `[l, r]` exactly
once. -/
theorem rsum_eq_sum_Icc (a : Int → Int) (l r : Int) :
    rsum a l r = ∑ i ∈ Finset.Icc l r, a i := by
  by_cases h : l ≤ r
  · have hins : Finset.Icc l r = insert r (Finset.Icc l (r - 1)) := by
      ext i
      simp only [Finset.mem_Icc, Finset.mem_insert]
      omega
    have hnotmem : r ∉ Finset.Icc l (r - 1) := by
      simp only [Finset.mem_Icc]
      omega
    rw [rsum_last a h, hins, Finset.sum_insert hnotmem, rsum_eq_sum_Icc a l (r - 1)]
    ring
  · rw [rsum_neg a (by omega), Finset.Icc_eq_empty (by omega), Finset.sum_empty]
termination_by (r + 1 - l).toNat
decreasing_by omega

/-- C1: for every array `A` of length `n ≥ 1` and `0 ≤ l ≤ r ≤ n - 1`,
`query(l, r)` on the tree built from `A` returns the sum of exactly the
elements `A[l..r]`, each counted exactly once. -/
theorem query_sums_range (arr : List Int) (l r : Int) (hn : 1 ≤ arr.length)
    (hl : 0 ≤ l) (hlr : l ≤ r) (hr : r ≤ (arr.length : Int) - 1) :
    (segTreeOf arr).query l r = ∑ i ∈ Finset.Icc l r, aget arr i := by
  simp only [segTreeOf, Tree.query]
  rw [sum_correct (build_inv arr (fun _ => 0) 1 0 ((arr.length : Int) - 1)
      (by norm_num) (by omega)) (by omega) hl hr]
  exact rsum_eq_sum_Icc (aget arr) l r

/-- Witness for C1 at `A = [2, 7, 5]`, `l = 0`, `r = 2`. -/
theorem query_sums_range_witness :
    1 ≤ [(2 : Int), 7, 5].length ∧ (0 : Int) ≤ 0 ∧ (0 : Int) ≤ 2 ∧
      (2 : Int) ≤ ([(2 : Int), 7, 5].length : Int) - 1 ∧
      (segTreeOf [2, 7, 5]).query 0 2 = ∑ i ∈ Finset.Icc (0 : Int) 2, aget [2, 7, 5] i :=
  ⟨by norm_num, by norm_num, by norm_num, by norm_num,
    query_sums_range [2, 7, 5] 0 2 (by norm_num) (by norm_num) (by norm_num) (by norm_num)⟩

theorem applyUpdates_inv {n : Nat} (us : List (Int × Int))
    (hus : ∀ pv ∈ us, 0 ≤ pv.1 ∧ pv.1 ≤ (n : Int) - 1) :
    ∀ (s : Tree) (a : Int → Int), s.size = n → Inv s.tree a 1 0 ((n : Int) - 1) →
      (applyUpdates s us).size = n ∧
        Inv (applyUpdates s us).tree (asets a us) 1 0 ((n : Int) - 1) := by
  induction us with
  | nil =>
    intro s a hs hI
    exact ⟨hs, hI⟩
  | cons pv rest ih =>
    intro s a hs hI
    have hv := hus pv (List.mem_cons_self pv rest)
    have hstep : (s.updateAt pv.1 pv.2).size = n := by
      simp [Tree.updateAt, hs]
    have hInv2 : Inv (s.updateAt pv.1 pv.2).tree (aset a pv.1 pv.2) 1 0 ((n : Int) - 1) := by
      simp only [Tree.updateAt, hs]
      exact update_inv (by norm_num) (by omega) hv.1 hv.2 hI
    simpa [applyUpdates, asets] using
      ih (fun q hq => hus q (List.mem_cons_of_mem pv hq))
        (s.updateAt pv.1 pv.2) (aset a pv.1 pv.2) hstep hInv2

/-- C2: after construction from `A` (length `n ≥ 1`) and any sequence of
valid `update(pos, value)` calls, the §3 invariant holds on the whole
reachable decomposition: every internal slot `v` satisfies
`tree[v] = tree[2v] + tree[2v+1]` and every leaf slot holds the current
value at its position. -/
theorem invariant_after_updates (arr : List Int) (us : List (Int × Int))
    (hn : 1 ≤ arr.length)
    (hus : ∀ pv ∈ us, 0 ≤ pv.1 ∧ pv.1 ≤ (arr.length : Int) - 1) :
    Inv (applyUpdates (segTreeOf arr) us).tree (asets (aget arr) us) 1 0
      ((arr.length : Int) - 1) :=
  (applyUpdates_inv us hus (segTreeOf arr) (aget arr) rfl
    (build_inv arr (fun _ => 0) 1 0 ((arr.length : Int) - 1)
      (by norm_num) (by omega))).2

/-- Witness for C2 at `A = [4, 5]` with update sequence `[(0, 9)]`. -/
theorem invariant_after_updates_witness :
    1 ≤ [(4 : Int), 5].length ∧
      (∀ pv ∈ [((0 : Int), (9 : Int))], 0 ≤ pv.1 ∧ pv.1 ≤ ([(4 : Int), 5].length : Int) - 1) ∧
      Inv (applyUpdates (segTreeOf [4, 5]) [(0, 9)]).tree
        (asets (aget [4, 5]) [(0, 9)]) 1 0 (([(4 : Int), 5].length : Int) - 1) :=
  ⟨by norm_num, by norm_num,
    invariant_after_updates [4, 5] [(0, 9)] (by norm_num) (by norm_num)⟩

/-- C5: for every array `A` of length `n ≥ 1` and valid `pos`,
`query(pos, pos)` returns `A[pos]` immediately after construction, and
returns `value` immediately after `update(pos, value)`. -/
theorem point_read_through (arr : List Int) (pos x : Int) (hn : 1 ≤ arr.length)
    (h1 : 0 ≤ pos) (h2 : pos ≤ (arr.length : Int) - 1) :
    (segTreeOf arr).query pos pos = aget arr pos ∧
      ((segTreeOf arr).updateAt pos x).query pos pos = x := by
  have hb := build_inv arr (fun _ => 0) 1 0 ((arr.length : Int) - 1) (by norm_num) (by omega)
  constructor
  · simp only [segTreeOf, Tree.query]
    rw [sum_correct hb (by omega) h1 h2, rsum_single]
  · simp only [segTreeOf, Tree.updateAt, Tree.query]
    rw [sum_correct (update_inv (by norm_num) (by omega) h1 h2 hb) (by omega) h1 h2,
      rsum_single]
    simp [aset]

/-- Witness for C5 at `A = [3, 8]`, `pos = 1`, `value = 6`. -/
theorem point_read_through_witness :
    1 ≤ [(3 : Int), 8].length ∧ (0 : Int) ≤ 1 ∧ (1 : Int) ≤ ([(3 : Int), 8].length : Int) - 1 ∧
      ((segTreeOf [3, 8]).query 1 1 = aget [3, 8] 1 ∧
        ((segTreeOf [3, 8]).updateAt 1 6).query 1 1 = 6) :=
  ⟨by norm_num, by norm_num, by norm_num,
    point_read_through [3, 8] 1 6 (by norm_num) (by norm_num) (by norm_num)⟩

/-- C6: on any tree state over `[0, n-1]`, after `update(pos, value)` the
point query `query(i, i)` is unchanged for every valid `i ≠ pos`. -/
theorem update_locality (t : Int → Int) (n : Nat) (i pos x : Int) (hn : 1 ≤ n)
    (hi1 : 0 ≤ i) (hi2 : i ≤ (n : Int) - 1) (hp1 : 0 ≤ pos) (hp2 : pos ≤ (n : Int) - 1)
    (hne : i ≠ pos) :
    (Tree.updateAt ⟨n, t⟩ pos x).query i i = (Tree.mk n t).query i i := by
  simp only [Tree.updateAt, Tree.query]
  exact sum_point_update (by norm_num) hi1 hi2 hp1 hp2 hne

/-- Witness for C6 at `n = 2`, `i = 0`, `pos = 1`. -/
theorem update_locality_witness :
    1 ≤ 2 ∧ (0 : Int) ≤ 0 ∧ (0 : Int) ≤ ((2 : Nat) : Int) - 1 ∧ (0 : Int) ≤ 1 ∧
      (1 : Int) ≤ ((2 : Nat) : Int) - 1 ∧ (0 : Int) ≠ 1 ∧
      (Tree.updateAt ⟨2, fun _ => (0 : Int)⟩ 1 5).query 0 0 =
        (Tree.mk 2 (fun _ => (0 : Int))).query 0 0 :=
  ⟨by norm_num, by norm_num, by norm_num, by norm_num, by norm_num, by norm_num,
    update_locality (fun _ => 0) 2 0 1 5 (by norm_num) (by norm_num) (by norm_num)
      (by norm_num) (by norm_num) (by norm_num)⟩

/-- C7: on any tree state over `[0, n-1]` satisfying the §3 invariant
(every reachable state does, by C2), queries are range-additive:
`query(l, r) = query(l, m) + query(m+1, r)` for `0 ≤ l ≤ m < r ≤ n-1`. -/
theorem range_additivity (t a : Int → Int) (n : Nat) (l m r : Int) (hn : 1 ≤ n)
    (hI : Inv t a 1 0 ((n : Int) - 1)) (h0 : 0 ≤ l) (h1 : l ≤ m) (h2 : m < r)
    (h3 : r ≤ (n : Int) - 1) :
    (Tree.mk n t).query l r = (Tree.mk n t).query l m + (Tree.mk n t).query (m + 1) r := by
  simp only [Tree.query]
  rw [sum_correct hI (by omega) h0 h3, sum_correct hI (by omega) h0 (by omega),
    sum_correct hI (by omega) (by omega) h3,
    ← rsum_split a l m r (by omega) (by omega)]

/-- Witness for C7 at the tree built from `[1, 2]`, `l = m = 0`, `r = 1`. -/
theorem range_additivity_witness :
    1 ≤ 2 ∧ (0 : Int) ≤ 0 ∧ (0 : Int) ≤ 0 ∧ (0 : Int) < 1 ∧
      (1 : Int) ≤ ((2 : Nat) : Int) - 1 ∧
      (Tree.mk 2 (build [1, 2] (fun _ => 0) 1 0 (((2 : Nat) : Int) - 1))).query 0 1 =
        (Tree.mk 2 (build [1, 2] (fun _ => 0) 1 0 (((2 : Nat) : Int) - 1))).query 0 0 +
          (Tree.mk 2 (build [1, 2] (fun _ => 0) 1 0 (((2 : Nat) : Int) - 1))).query (0 + 1) 1 :=
  ⟨by norm_num, by norm_num, by norm_num, by norm_num, by norm_num,
    range_additivity (build [1, 2] (fun _ => 0) 1 0 (((2 : Nat) : Int) - 1)) (aget [1, 2])
      2 0 0 1 (by norm_num)
      (build_inv [1, 2] (fun _ => 0) 1 0 (((2 : Nat) : Int) - 1) (by norm_num) (by norm_num))
      (by norm_num) (by norm_num) (by norm_num) (by norm_num)⟩

/-- C3 counterexample: the source validates nothing and has no
`OutOfRange` error channel.  On the tree over `[0, 1]` built from
`[5, 7]`, the out-of-range call `update(2, 9)` (with `pos == n`) returns
normally and silently overwrites the last leaf: `query(1, 1)` becomes `9`
where it was `7`. -/
theorem oob_update_no_failure :
    ((segTreeOf [5, 7]).updateAt 2 9).query 1 1 = 9 ∧
      (segTreeOf [5, 7]).query 1 1 = 7 := by
  have e1 : segTreeOf [5, 7] = ⟨2, build [5, 7] (fun _ => 0) 1 0 1⟩ := rfl
  have hb : Inv (build [5, 7] (fun _ => 0) 1 0 1) (aget [5, 7]) 1 0 1 :=
    build_inv [5, 7] (fun _ => 0) 1 0 1 (by norm_num) (by norm_num)
  rw [e1]
  constructor
  · simp only [Tree.updateAt, Tree.query]
    norm_num
    rw [update_clamp_high (by norm_num) (by norm_num : (1 : Int) < 2),
      sum_correct (update_inv (by norm_num) (by norm_num) (by norm_num) (by norm_num) hb)
        (by norm_num) (by norm_num) (by norm_num), rsum_single]
    simp [aset]
  · simp only [Tree.query]
    norm_num
    rw [sum_correct hb (by norm_num) (by norm_num) (by norm_num), rsum_single]
    decide

/-- C3 amended: out-of-range indices are not detected and nothing fails
with `OutOfRange`; `update(pos, value)` with `pos > n - 1` behaves
exactly like `update(n - 1, value)`, silently overwriting the last leaf
(and an out-of-range `query` recurses without bound in the source). -/
theorem oob_update_writes_last_leaf (t : Int → Int) (n : Nat) (pos x : Int)
    (hn : 1 ≤ n) (hp : (n : Int) - 1 < pos) :
    Tree.updateAt ⟨n, t⟩ pos x = Tree.updateAt ⟨n, t⟩ ((n : Int) - 1) x := by
  simp only [Tree.updateAt]
  rw [update_clamp_high (show (0 : Int) ≤ (n : Int) - 1 by omega) hp]

/-- Witness for the amended C3 at `n = 2`, `pos = 2`. -/
theorem oob_update_writes_last_leaf_witness :
    1 ≤ 2 ∧ ((2 : Nat) : Int) - 1 < 2 ∧
      Tree.updateAt ⟨2, fun _ => (0 : Int)⟩ 2 9 =
        Tree.updateAt ⟨2, fun _ => (0 : Int)⟩ (((2 : Nat) : Int) - 1) 9 :=
  ⟨by norm_num, by norm_num,
    oob_update_writes_last_leaf (fun _ => 0) 2 2 9 (by norm_num) (by norm_num)⟩

/-- C8: the spec's concrete scenario on `A = [1, 3, 5, 7, 9, 11]`:
`query(1, 4) = 24`; after `update(2, 100)`, `query(1, 4) = 119` and
`query(0, 5) = 131`. -/
theorem concrete_scenario :
    (segTreeOf [1, 3, 5, 7, 9, 11]).query 1 4 = 24 ∧
      ((segTreeOf [1, 3, 5, 7, 9, 11]).updateAt 2 100).query 1 4 = 119 ∧
      ((segTreeOf [1, 3, 5, 7, 9, 11]).updateAt 2 100).query 0 5 = 131 := by
  have e1 : segTreeOf [1, 3, 5, 7, 9, 11] =
      ⟨6, build [1, 3, 5, 7, 9, 11] (fun _ => 0) 1 0 5⟩ := rfl
  have hb : Inv (build [1, 3, 5, 7, 9, 11] (fun _ => 0) 1 0 5)
      (aget [1, 3, 5, 7, 9, 11]) 1 0 5 :=
    build_inv [1, 3, 5, 7, 9, 11] (fun _ => 0) 1 0 5 (by norm_num) (by norm_num)
  have hu : Inv (update (build [1, 3, 5, 7, 9, 11] (fun _ => 0) 1 0 5) 1 0 5 2 100)
      (aset (aget [1, 3, 5, 7, 9, 11]) 2 100) 1 0 5 :=
    update_inv (by norm_num) (by norm_num) (by norm_num) (by norm_num) hb
  rw [e1]
  refine ⟨?_, ?_, ?_⟩
  · simp only [Tree.query]
    norm_num
    rw [sum_correct hb (by norm_num) (by norm_num) (by norm_num)]
    decide
  · simp only [Tree.updateAt, Tree.query]
    norm_num
    rw [sum_correct hu (by norm_num) (by norm_num) (by norm_num)]
    decide
  · simp only [Tree.updateAt, Tree.query]
    norm_num
    rw [sum_correct hu (by norm_num) (by norm_num) (by norm_num)]
    decide

/-- C4: for `n ≥ 1` the `4 * n` slots allocated by the constructor
suffice: every slot `build` touches, every slot a valid-range `sum`
(query) reads and every slot a valid `update` reads or writes lies in
`[1, 4n)`, within the allocated buffer. -/
theorem storage_bound (n : Nat) (l r pos : Int) (hn : 1 ≤ n)
    (hl : 0 ≤ l) (hr : r ≤ (n : Int) - 1) (hp1 : 0 ≤ pos) (hp2 : pos ≤ (n : Int) - 1) :
    (∀ w ∈ segSlots 1 0 ((n : Int) - 1), 1 ≤ w ∧ w < 4 * (n : Int)) ∧
      (∀ w ∈ sumSlots 1 0 ((n : Int) - 1) l r, 1 ≤ w ∧ w < 4 * (n : Int)) ∧
      (∀ w ∈ updateSlots 1 0 ((n : Int) - 1) pos, 1 ≤ w ∧ w < 4 * (n : Int)) := by
  have hne : (n : Int) ≤ 2 ^ Nat.clog 2 n := by
    exact_mod_cast Nat.le_pow_clog (by norm_num : 1 < 2) n
  have h2n : (2 : Int) ^ Nat.clog 2 n ≤ 2 * (n : Int) := by
    exact_mod_cast pow_clog_le_two_mul hn
  have hmain : ∀ w ∈ segSlots 1 0 ((n : Int) - 1), 1 ≤ w ∧ w < 4 * (n : Int) := by
    intro w hw
    refine ⟨segSlots_lb le_rfl hw, ?_⟩
    have hub := segSlots_ub (e := Nat.clog 2 n) le_rfl
      (by omega : (0 : Int) ≤ (n : Int) - 1) (by omega) w hw
    have hexp : ((1 : Int) + 1) * 2 ^ Nat.clog 2 n = 2 * 2 ^ Nat.clog 2 n := by ring
    omega
  exact ⟨hmain, fun w hw => hmain w (sumSlots_sub (by omega) hl hr w hw),
    fun w hw => hmain w (updateSlots_sub (by omega) w hw)⟩

/-- Witness for C4 at `n = 2`, `l = 0`, `r = 1`, `pos = 1`. -/
theorem storage_bound_witness :
    1 ≤ 2 ∧ (0 : Int) ≤ 0 ∧ (1 : Int) ≤ ((2 : Nat) : Int) - 1 ∧ (0 : Int) ≤ 1 ∧
      (1 : Int) ≤ ((2 : Nat) : Int) - 1 ∧
      ((∀ w ∈ segSlots 1 0 (((2 : Nat) : Int) - 1), 1 ≤ w ∧ w < 4 * ((2 : Nat) : Int)) ∧
        (∀ w ∈ sumSlots 1 0 (((2 : Nat) : Int) - 1) 0 1, 1 ≤ w ∧ w < 4 * ((2 : Nat) : Int)) ∧
        (∀ w ∈ updateSlots 1 0 (((2 : Nat) : Int) - 1) 1, 1 ≤ w ∧ w < 4 * ((2 : Nat) : Int))) :=
  ⟨by norm_num, by norm_num, by norm_num, by norm_num, by norm_num,
    storage_bound 2 0 1 1 (by norm_num) (by norm_num) (by norm_num) (by norm_num) (by norm_num)⟩

end SegTree

namespace SharedPtr

/-- General form of the copy-constructor defect: constructing from a raw
pointer sets the counter cell at `c` to `1`; copy construction then
leaves the shared counter at `1` because `*m_ref_count++` increments the
member pointer, and the copy's `m_ref_count` points at the unallocated
cell `c + 1`, so its `use_count()` reads invalid memory (here: whatever
the heap holds one past the allocation). -/
theorem copy_ctor_does_not_increment (h : Nat → Nat) (p c : Nat) :
    use_count (fromRaw p c h).2 (fromRaw p c h).1 = 1 ∧
      use_count (fromRaw p c h).2 (copyCtor (fromRaw p c h).1) = (fromRaw p c h).2 (c + 1) ∧
      (copyCtor (fromRaw p c h).1).m_ptr = some p ∧
      (copyCtor (fromRaw p c h).1).m_ref_count = c + 1 := by
  refine ⟨?_, rfl, rfl, rfl⟩
  simp [use_count, fromRaw, hset]

/-- C9 (code bug, evaluated at the failing input): `p` manages a fresh
object with `use_count() = 1`; after `customSharedPtr q(p);` the count
observed through `p` is still `1`, not `2` as the claim (and the clearly
intended reference-counting semantics, cf. the correct increment in the
copy-assignment operator) requires, and `q`'s counter pointer has moved
to the unallocated cell `c + 1`. -/
theorem copy_ctor_bug_concrete :
    use_count (fromRaw 3 0 (fun _ => 0)).2 (fromRaw 3 0 (fun _ => 0)).1 = 1 ∧
      ¬ use_count (fromRaw 3 0 (fun _ => 0)).2 (fromRaw 3 0 (fun _ => 0)).1 = 2 ∧
      (copyCtor (fromRaw 3 0 (fun _ => 0)).1).m_ref_count = 1 := by
  refine ⟨?_, ?_, rfl⟩ <;> simp [use_count, fromRaw, hset]

end SharedPtr

namespace UniquePtr

/-- C10: after a `customUniquePointer` is moved from — by move
construction or move assignment into another `customUniquePointer` — its
`get()` returns `nullptr` and its `operator bool` is `false`, while the
destination's `get()` returns the pointer the source managed before the
move. -/
theorem moved_from_is_null (src dst : UPtr) :
    get (moveCtor src).2 = none ∧ toBool (moveCtor src).2 = false ∧
      get (moveCtor src).1 = get src ∧
      get (moveAssign dst src).2.1 = none ∧ toBool (moveAssign dst src).2.1 = false ∧
      get (moveAssign dst src).1 = get src :=
  ⟨rfl, rfl, rfl, rfl, rfl, rfl⟩

end UniquePtr
